import Mathlib

/-!
Verification development for the txtRefine terminology-correction engine.

The definitions below are a shallow embedding of the Python source:
  - src/refine/bp_philosophy.py   (class BPPhilosophySystem)
  - src/refine/bp_philosophy_optimized.py (class OptimizedBPPhilosophySystem)
  - src/refine/utils.py           (class TextProcessingCache)

Texts are modelled as lists of characters.  Python string methods
(lower/upper/capitalize/isupper/istitle/strip/split) are modelled
character-exactly for the character ranges appearing in the source data
(ASCII plus the Latin-1 letters).  Regex use in the source is limited to
escaped-literal patterns with IGNORECASE, word-boundary wrapped literal
words, and alternations of literals with a trailing whitespace class;
each of those is embedded directly.
-/

namespace TxtRefine

/-- Texts are lists of characters. -/
abbrev Str := List Char

/-- Latin-1 uppercase letter range (À..Þ without the multiplication sign). -/
def isLatin1Upper (c : Char) : Bool :=
  0xC0 ≤ c.toNat && c.toNat ≤ 0xDE && c.toNat ≠ 0xD7

/-- Latin-1 lowercase letter range (ß..ÿ without the division sign). -/
def isLatin1Lower (c : Char) : Bool :=
  0xDF ≤ c.toNat && c.toNat ≤ 0xFF && c.toNat ≠ 0xF7

/-- Uppercase (cased) characters of the source data: ASCII plus Latin-1. -/
def isUpperChar (c : Char) : Bool :=
  (65 ≤ c.toNat && c.toNat ≤ 90) || isLatin1Upper c

/-- Lowercase (cased) characters of the source data: ASCII plus Latin-1. -/
def isLowerChar (c : Char) : Bool :=
  (97 ≤ c.toNat && c.toNat ≤ 122) || isLatin1Lower c

/-- A cased character (no titlecase characters occur in the source data). -/
def isCasedChar (c : Char) : Bool := isUpperChar c || isLowerChar c

/-- Python str.lower, per character (exact on ASCII and Latin-1; ß has no
    lowercase change and no other multi-character foldings occur). -/
def pyLowerChar (c : Char) : Char :=
  if isUpperChar c then Char.ofNat (c.toNat + 32) else c

/-- Python str.upper, per character (the source data contains no ß, the one
    Latin-1 letter whose upper case is not a single character). -/
def pyUpperChar (c : Char) : Char :=
  if isLowerChar c && c.toNat ≠ 0xDF && c.toNat ≠ 0xFF then
    Char.ofNat (c.toNat - 32)
  else c

/-- Python str.lower on a string. -/
def pyLower (s : Str) : Str := s.map pyLowerChar

/-- Python str.upper on a string. -/
def pyUpper (s : Str) : Str := s.map pyUpperChar

/-- Python str.isupper: at least one cased character and no lowercase one. -/
def pyIsUpper (s : Str) : Bool :=
  s.any isCasedChar && s.all (fun c => !(isLowerChar c))

/-- Python str.istitle, one step: carries (previous character was cased). -/
def pyIsTitleGo (prevCased : Bool) : Str → Bool
  | [] => true
  | c :: rest =>
    if isUpperChar c then
      if prevCased then false else pyIsTitleGo true rest
    else if isLowerChar c then
      if prevCased then pyIsTitleGo true rest else false
    else
      pyIsTitleGo false rest

/-- Python str.istitle: uppercase letters only after uncased characters,
    lowercase letters only after cased ones, and at least one cased letter. -/
def pyIsTitle (s : Str) : Bool :=
  s.any isCasedChar && pyIsTitleGo false s

/-- Python str.capitalize: first character upper-cased, the rest lowered. -/
def pyCapitalize : Str → Str
  | [] => []
  | c :: rest => pyUpperChar c :: pyLower rest

/-- Python whitespace characters (str.strip / str.split / regex \s). -/
def pyIsSpace (c : Char) : Bool :=
  c = ' ' || c = Char.ofNat 9 || c = Char.ofNat 10 || c = Char.ofNat 13 ||
  c = Char.ofNat 11 || c = Char.ofNat 12

/-- Python str.strip (whitespace from both ends). -/
def pyStrip (s : Str) : Str :=
  ((s.dropWhile pyIsSpace).reverse.dropWhile pyIsSpace).reverse

/-- Accent stripping for the lowercase Latin-1 letters of the source data:
    the effect of NFD decomposition followed by dropping combining marks
    (bp_philosophy.py _normalize applies it after lowercasing). -/
def stripAccentChar (c : Char) : Char :=
  if c = 'á' || c = 'à' || c = 'â' || c = 'ã' || c = 'ä' then 'a'
  else if c = 'é' || c = 'è' || c = 'ê' || c = 'ë' then 'e'
  else if c = 'í' || c = 'ì' || c = 'î' || c = 'ï' then 'i'
  else if c = 'ó' || c = 'ò' || c = 'ô' || c = 'õ' || c = 'ö' then 'o'
  else if c = 'ú' || c = 'ù' || c = 'û' || c = 'ü' then 'u'
  else if c = 'ç' then 'c'
  else if c = 'ñ' then 'n'
  else if c = 'ý' then 'y'
  else c

/-- BPPhilosophySystem._normalize: lowercase, strip, drop accents
    (empty strings are returned unchanged). -/
def normalize (s : Str) : Str :=
  if s = [] then s else (pyLower (pyStrip s)).map stripAccentChar

/-- Case-insensitive literal match of a pattern at position i of the text
    (re.escape-d literal compiled with re.IGNORECASE). -/
def matchesAt (pat text : Str) (i : Nat) : Bool :=
  pyLower ((text.drop i).take pat.length) = pyLower pat

/-- re.finditer on an escaped literal: left-to-right scan, resuming after
    the end of each match (fuel bounds the scan; it is never exhausted for
    nonempty patterns). -/
def findFrom (pat text : Str) (i fuel : Nat) : List Nat :=
  match fuel with
  | 0 => []
  | f + 1 =>
    if i + pat.length ≤ text.length then
      if matchesAt pat text i then i :: findFrom pat text (i + pat.length) f
      else findFrom pat text (i + 1) f
    else []

/-- All match start positions of pattern.finditer(text) for a literal
    IGNORECASE pattern. -/
def findMatches (pat text : Str) : List Nat :=
  findFrom pat text 0 (text.length + 1)

/-- Case mirroring applied when rewriting a matched occurrence
    (bp_philosophy.py lines 830-835 and 1074-1079). -/
def mirrorCase (original target : Str) : Str :=
  if pyIsUpper original then pyUpper target
  else if pyIsTitle original then pyCapitalize target
  else pyLower target

/-- Replacement construction of find_and_correct_terms: case is mirrored
    only for single-word canonical forms; multi-word canonical forms are
    emitted verbatim (bp_philosophy.py lines 828-837). -/
def applyCasing (original correct : Str) : Str :=
  if ' ' ∈ correct then correct else mirrorCase original correct

/-- One correction record, as returned to the caller. -/
structure CorrRec where
  original : Str
  corrected : Str
  position : Nat
deriving DecidableEq

/-- State threaded through the exact-dictionary loop of
    BPPhilosophySystem.find_and_correct_terms: the evolving text, the
    corrected_positions set, and the records list. -/
structure ScanSt where
  text : Str
  positions : List (Nat × Nat)
  records : List CorrRec
deriving DecidableEq

/-- Overlap test against the corrected_positions set
    (bp_philosophy.py lines 818-822). -/
def overlapsAny (s e : Nat) (ps : List (Nat × Nat)) : Bool :=
  ps.any (fun p => s < p.2 && e > p.1)

/-- Processing of one match of one pattern (bp_philosophy.py lines 813-848).
    base is the text the match positions were computed on; the replacement
    is spliced into the current text (the source recomputes neither the
    match list nor the recorded original after earlier replacements). -/
def applyOne (base pat correct : Str) (st : ScanSt) (m : Nat) : ScanSt :=
  if overlapsAny m (m + pat.length) st.positions then st
  else
    { text := st.text.take m ++ applyCasing ((base.drop m).take pat.length) correct ++
        st.text.drop (m + pat.length)
      positions := st.positions ++
        [(m, m + (applyCasing ((base.drop m).take pat.length) correct).length)]
      records := st.records ++
        [⟨(base.drop m).take pat.length,
          applyCasing ((base.drop m).take pat.length) correct, m⟩] }

/-- All matches of one pattern, applied in order; the match list was
    computed once on the text as it stood when the pattern was reached. -/
def applyPat (base pat correct : Str) (ms : List Nat) (st : ScanSt) : ScanSt :=
  ms.foldl (applyOne base pat correct) st

/-- The per-pattern loop of the exact pass, over the processing list
    (self.corrections sorted by decreasing key length, ties in insertion
    order). -/
def runPats (dict : List (Str × Str)) (st : ScanSt) : ScanSt :=
  match dict with
  | [] => st
  | (p, c) :: rest => runPats rest (applyPat st.text p c (findMatches p st.text) st)

/-- The exact-dictionary pass of BPPhilosophySystem.find_and_correct_terms
    (lines 803-848), parameterized by the sorted corrections list. -/
def findAndCorrectExact (dict : List (Str × Str)) (text : Str) : ScanSt :=
  runPats dict ⟨text, [], []⟩

/-- State of the optimized scan, which has no corrected_positions set. -/
structure OScanSt where
  text : Str
  records : List CorrRec
deriving DecidableEq

/-- Overlap test of the optimized scan: directly against the spans of the
    records made so far (bp_philosophy_optimized.py line 380). -/
def overlapsRecs (s e : Nat) (rs : List CorrRec) : Bool :=
  rs.any (fun r => s < r.position + r.original.length && e > r.position)

/-- One match step of OptimizedBPPhilosophySystem.find_and_correct_terms
    (lines 374-407). -/
def oApplyOne (base pat correct : Str) (st : OScanSt) (m : Nat) : OScanSt :=
  if overlapsRecs m (m + pat.length) st.records then st
  else
    { text := st.text.take m ++ applyCasing ((base.drop m).take pat.length) correct ++
        st.text.drop (m + pat.length)
      records := st.records ++
        [⟨(base.drop m).take pat.length,
          applyCasing ((base.drop m).take pat.length) correct, m⟩] }

/-- All matches of one pattern in the optimized scan. -/
def oApplyPat (base pat correct : Str) (ms : List Nat) (st : OScanSt) : OScanSt :=
  ms.foldl (oApplyOne base pat correct) st

/-- Per-pattern loop of the optimized scan over the pre-sorted list. -/
def oRunPats (dict : List (Str × Str)) (st : OScanSt) : OScanSt :=
  match dict with
  | [] => st
  | (p, c) :: rest => oRunPats rest (oApplyPat st.text p c (findMatches p st.text) st)

/-- OptimizedBPPhilosophySystem.find_and_correct_terms (lines 359-409). -/
def findAndCorrectOpt (dict : List (Str × Str)) (text : Str) : OScanSt :=
  oRunPats dict ⟨text, []⟩

/-! ### Fuzzy name matching (bp_philosophy.py lines 889-1002) -/

/-- Regex word characters (\w with re.UNICODE) over the character ranges of
    the source data: ASCII alphanumerics, underscore, Latin-1 letters. -/
def isWordChar (c : Char) : Bool :=
  (65 ≤ c.toNat && c.toNat ≤ 90) || (97 ≤ c.toNat && c.toNat ≤ 122) ||
  (48 ≤ c.toNat && c.toNat ≤ 57) || c = '_' || isLatin1Upper c || isLatin1Lower c

/-- Character class of the tokenizer regex [\wÀ-ÿ] (the explicit range also
    covers the two Latin-1 non-letters). -/
def isTokChar (c : Char) : Bool :=
  isWordChar c || (0xC0 ≤ c.toNat && c.toNat ≤ 0xFF)

/-- A token with its start and end offsets, as produced by
    re.finditer of the word regex over the text. -/
structure Tok where
  start : Nat
  stop : Nat
  tstr : Str
deriving DecidableEq

/-- Tokenization: maximal runs of token characters (the word-boundary
    anchors of the source regex are automatic for such runs over word
    characters, the only kind occurring in the data). -/
def tokenizeFrom (l : Str) (i fuel : Nat) : List Tok :=
  match fuel with
  | 0 => []
  | f + 1 =>
    match l with
    | [] => []
    | c :: rest =>
      if isTokChar c then
        let run := (c :: rest).takeWhile isTokChar
        ⟨i, i + run.length, run⟩ :: tokenizeFrom ((c :: rest).drop run.length) (i + run.length) f
      else tokenizeFrom rest (i + 1) f

/-- All tokens of a text with their offsets (_extract_name_candidates). -/
def tokenize (text : Str) : List Tok := tokenizeFrom text 0 text.length

/-- Uppercase characters of the name-token regex of _is_name_like. -/
def isUpperNameChar (c : Char) : Bool :=
  (65 ≤ c.toNat && c.toNat ≤ 90) ||
  c ∈ ['Á', 'À', 'Ã', 'Â', 'É', 'Ê', 'Í', 'Ó', 'Ô', 'Õ', 'Ú', 'Ç']

/-- Lowercase characters of the name-token regex of _is_name_like. -/
def isLowerNameChar (c : Char) : Bool :=
  (97 ≤ c.toNat && c.toNat ≤ 122) ||
  c ∈ ['á', 'à', 'ã', 'â', 'é', 'ê', 'í', 'ó', 'ô', 'õ', 'ú', 'ç']

/-- The Portuguese name-linking particles of the source. -/
def particles : List Str :=
  [(r"de").data, (r"da").data, (r"do").data, (r"dos").data, (r"das").data]

/-- BPPhilosophySystem._is_name_like: a capitalized word (uppercase first
    letter, one or more lowercase letters) or a linking particle. -/
def isNameLike (tok : Str) : Bool :=
  (match tok with
   | [] => false
   | c :: rest => isUpperNameChar c && !rest.isEmpty && rest.all isLowerNameChar)
  || pyLower tok ∈ particles

/-- A candidate name span. -/
structure NSpan where
  start : Nat
  stop : Nat
  sub : Str
deriving DecidableEq

/-- Substring text[s:e]. -/
def sliceStr (text : Str) (s e : Nat) : Str := (text.drop s).take (e - s)

/-- _extract_name_candidates: runs of up to 6 name-like tokens with at
    least two capitalized non-particle tokens (fuel bounds the walk over
    the token list and is never exhausted). -/
def extractGo (text : Str) (toks : List Tok) (fuel : Nat) : List NSpan :=
  match fuel with
  | 0 => []
  | f + 1 =>
    match toks with
    | [] => []
    | t :: rest =>
      if isNameLike t.tstr then
        let k := min 5 ((rest.takeWhile (fun u => isNameLike u.tstr)).length)
        if 1 ≤ k then
          let run := t :: rest.take k
          let stop := (rest.take k).foldl (fun _ u => u.stop) t.stop
          let parts := run.filter (fun u => !(pyLower u.tstr ∈ particles))
          let caps := parts.filter (fun u =>
            match u.tstr with | c :: _ => isUpperChar c | [] => false)
          (if 2 ≤ caps.length then [⟨t.start, stop, sliceStr text t.start stop⟩] else [])
            ++ extractGo text (rest.drop k) f
        else extractGo text rest f
      else extractGo text rest f

/-- Candidate name spans of a text. -/
def extractNameCandidates (text : Str) : List NSpan :=
  extractGo text (tokenize text) (text.length + 1)

/-- Length of the common extension of a and b starting at i and j,
    capped by bound. -/
def matchLen (a b : Str) (i j bound : Nat) : Nat :=
  match bound with
  | 0 => 0
  | bb + 1 =>
    match a.get? i, b.get? j with
    | some x, some y => if x = y then 1 + matchLen a b (i + 1) (j + 1) bb else 0
    | _, _ => 0

/-- difflib SequenceMatcher.find_longest_match on a[alo:ahi] and b[blo:bhi]
    (no junk: autojunk applies only to sequences of at least 200 elements):
    the longest common block, earliest in a and then in b among maxima. -/
def longestMatch (a b : Str) (alo ahi blo bhi : Nat) : Nat × Nat × Nat :=
  (List.range' alo (ahi - alo)).foldl (fun best i =>
    (List.range' blo (bhi - blo)).foldl (fun best2 j =>
      let k := matchLen a b i j (min (ahi - i) (bhi - j))
      if best2.2.2 < k then (i, j, k) else best2) best) (alo, blo, 0)

/-- Total size of the matching blocks of SequenceMatcher
    (recursive splitting around the longest match; fuel bounds the
    recursion depth and is never exhausted). -/
def matchTotal (a b : Str) (alo ahi blo bhi fuel : Nat) : Nat :=
  match fuel with
  | 0 => 0
  | f + 1 =>
    let m := longestMatch a b alo ahi blo bhi
    if m.2.2 = 0 then 0
    else
      matchTotal a b alo m.1 blo m.2.1 f + m.2.2 +
        matchTotal a b (m.1 + m.2.2) ahi (m.2.1 + m.2.2) bhi f

/-- An exact similarity score num/den with positive denominator.  The
    source compares float ratios; at the string lengths involved the float
    values are exact enough that those comparisons agree with exact
    rational comparison, modelled here by cross-multiplication. -/
structure Score where
  num : Nat
  den : Nat
deriving DecidableEq

/-- Exact strict comparison of two scores. -/
def scoreLt (a b : Score) : Bool := a.num * b.den < b.num * a.den

/-- Rational value of a score. -/
def scoreVal (s : Score) : ℚ := (s.num : ℚ) / (s.den : ℚ)

/-- SequenceMatcher.ratio(): 2*M/T (1.0 when both strings are empty). -/
def ratioOf (a b : Str) : Score :=
  if a.length + b.length = 0 then ⟨1, 1⟩
  else ⟨2 * matchTotal a b 0 a.length 0 b.length (a.length + b.length + 1),
        a.length + b.length⟩

/-- Python dict lookup on the name-variant index (insertion list with
    distinct keys in every instantiation used below). -/
def lookupV (variants : List (Str × Str)) (k : Str) : Option Str :=
  (variants.find? (fun p => p.1 = k)).map (fun p => p.2)

/-- BPPhilosophySystem._best_name_match (lines 931-949): exact lookup
    first, then the best similarity over all variants; the membership test
    of the normalized candidate among normalized correction keys is
    evaluated inside the loop exactly as in the source, where it does not
    depend on the loop variable. -/
def bestNameMatch (corrKeys : List Str) (variants : List (Str × Str)) (cand : Str) :
    Str × Score :=
  let norm := normalize cand
  match lookupV variants norm with
  | some canonical => (canonical, ⟨1, 1⟩)
  | none =>
    variants.foldl (fun best vc =>
      if norm ∈ corrKeys.map normalize then best
      else
        let score := ratioOf norm vc.1
        if scoreLt best.2 score then (vc.2, score) else best)
      (([] : Str), (⟨0, 1⟩ : Score))

/-- Python str.split(): whitespace-run splitting, discarding empties. -/
def splitWs (s : Str) : List Str :=
  (s.splitOnP pyIsSpace).filter (fun x => !x.isEmpty)

/-- p[:1].upper() + p[1:]. -/
def capFirst : Str → Str
  | [] => []
  | c :: r => pyUpperChar c :: r

/-- Space-joining of tokens. -/
def joinSpace (l : List Str) : Str := (l.intersperse [' ']).flatten

/-- Particles kept lowercase by the fuzzy-pass title casing. -/
def titleParticles : List Str := particles ++ [['e']]

/-- title_portuguese (bp_philosophy.py lines 976-985). -/
def titlePortuguese (name : Str) : Str :=
  joinSpace ((splitWs name).map (fun p =>
    if pyLower p ∈ titleParticles then pyLower p else capFirst p))

/-- State of the fuzzy pass: evolving text, signed offset, records. -/
structure FuzzSt where
  text : Str
  offset : Int
  records : List CorrRec
deriving DecidableEq

/-- Last element of a token list ([-1] on a nonempty split). -/
def lastOrEmpty (l : List Str) : Str := l.getLastD []

/-- One candidate span of _fuzzy_correct_names (lines 966-1000): threshold
    check, identical-after-normalization check, duplicated-tail check, then
    the splice and offset update. -/
def fuzzyStep (corrKeys : List Str) (variants : List (Str × Str))
    (st : FuzzSt) (sp : NSpan) : FuzzSt :=
  let start := ((sp.start : Int) + st.offset).toNat
  let stop := ((sp.stop : Int) + st.offset).toNat
  let bm := bestNameMatch corrKeys variants sp.sub
  if bm.1 = [] || scoreLt bm.2 ⟨9, 10⟩ then st
  else if normalize sp.sub = normalize bm.1 then st
  else
    let replacement := titlePortuguese bm.1
    let tl := (st.text.drop stop).take 12
    if normalize (lastOrEmpty (splitWs replacement)) ∈ ((splitWs tl).take 2).map normalize
    then st
    else
      { text := st.text.take start ++ replacement ++ st.text.drop stop
        offset := st.offset + (replacement.length : Int) - ((stop : Int) - (start : Int))
        records := st.records ++ [⟨sp.sub, replacement, start⟩] }

/-- BPPhilosophySystem._fuzzy_correct_names (lines 951-1002). -/
def fuzzyCorrectNames (corrKeys : List Str) (variants : List (Str × Str))
    (text : Str) : Str × List CorrRec :=
  if variants = [] then (text, [])
  else
    let final := (extractNameCandidates text).foldl (fuzzyStep corrKeys variants)
      ⟨text, 0, []⟩
    (final.text, final.records)

/-! ### Context-aware corrections (bp_philosophy.py lines 1004-1092) -/

/-- One element of a trigger pattern: a literal character or \s. -/
inductive PTok where
  | lit : Char → PTok
  | ws : PTok

/-- A trigger: alternation of element sequences. -/
abbrev Trig := List (List PTok)

/-- Literal trigger. -/
def litp (s : Str) : List PTok := s.map PTok.lit

/-- Literal followed by \s. -/
def litws (s : Str) : List PTok := s.map PTok.lit ++ [PTok.ws]

/-- Element match. -/
def ptokHit : PTok → Char → Bool
  | PTok.lit c, x => x = c
  | PTok.ws, x => pyIsSpace x

/-- Sequence match at a position. -/
def seqAt (p : List PTok) (t : Str) (i : Nat) : Bool :=
  i + p.length ≤ t.length &&
  (List.zip p ((t.drop i).take p.length)).all (fun pc => ptokHit pc.1 pc.2)

/-- re.search of a trigger inside a window. -/
def trigFound (tr : Trig) (t : Str) : Bool :=
  tr.any (fun alt => (List.range (t.length + 1)).any (fun i => seqAt alt t i))

/-- The context_rules table (lines 1010-1058), in declaration order; the
    second entry embeds the source pattern \bSer\b, identical to \bser\b
    under IGNORECASE. -/
def contextRules : List (Str × List (Trig × Str)) :=
  [((r"ser").data,
    [([litp (r"heidegger").data], (r"Ser").data),
     ([litp (r"ontologia").data], (r"Ser").data),
     ([litp (r"existência").data], (r"Ser").data),
     ([litp (r"ente").data], (r"Ser").data),
     ([litp (r"dasein").data], (r"Ser").data),
     ([litp (r"próprio").data], (r"Ser").data),
     ([litp (r"autêntico").data], (r"Ser").data),
     ([litp (r"inautêntico").data], (r"Ser").data)]),
   ((r"ser").data,
    [([litws (r"é").data, litws (r"é").data], (r"ser").data),
     ([litws (r"foi").data, litws (r"era").data], (r"ser").data),
     ([litws (r"não").data], (r"ser").data),
     ([litws (r"poderia").data], (r"ser").data),
     ([litws (r"deveria").data], (r"ser").data),
     ([litws (r"como").data], (r"ser").data),
     ([litws (r"que").data], (r"ser").data)]),
   ((r"verdade").data,
    [([litp (r"absoluta").data], (r"Verdade").data),
     ([litp (r"eterna").data], (r"Verdade").data),
     ([litp (r"divina").data], (r"Verdade").data),
     ([litp (r"suprema").data], (r"Verdade").data),
     ([litp (r"ontológica").data], (r"Verdade").data),
     ([litp (r"última").data], (r"Verdade").data)]),
   ((r"bem").data,
    [([litp (r"idea do").data], (r"Bem").data),
     ([litp (r"forma do").data], (r"Bem").data),
     ([litp (r"ontológico").data], (r"Bem").data),
     ([litp (r"platônico").data], (r"Bem").data),
     ([litp (r"supremo").data], (r"Bem").data),
     ([litp (r"em si").data], (r"Bem").data)])]

/-- Word boundary to the left of position i. -/
def boundaryBefore (text : Str) (i : Nat) : Bool :=
  decide (i = 0) || !(isWordChar (text.getD (i - 1) ' '))

/-- Word boundary at position j (to the right of a match ending there). -/
def boundaryAfter (text : Str) (j : Nat) : Bool :=
  decide (text.length ≤ j) || !(isWordChar (text.getD j ' '))

/-- Match of the word-boundary-wrapped IGNORECASE literal at position i. -/
def wordAt (w text : Str) (i : Nat) : Bool :=
  matchesAt w text i && boundaryBefore text i && boundaryAfter text (i + w.length)

/-- finditer for a word-boundary-wrapped literal. -/
def findWordFrom (w text : Str) (i fuel : Nat) : List Nat :=
  match fuel with
  | 0 => []
  | f + 1 =>
    if i + w.length ≤ text.length then
      if wordAt w text i then i :: findWordFrom w text (i + w.length) f
      else findWordFrom w text (i + 1) f
    else []

/-- All word-boundary matches of a term. -/
def findWordMatches (w text : Str) : List Nat :=
  findWordFrom w text 0 (text.length + 1)

/-- One occurrence of one ambiguous term (lines 1061-1090): the ±50
    character window is taken from the current text, the occurrence
    positions and recorded original come from the text as it stood when
    the rule was reached, and the first matching trigger is applied with
    the case mirroring of the source. -/
def ctxApplyMatch (rules : List (Trig × Str)) (term base : Str)
    (st : Str × List CorrRec) (m : Nat) : Str × List CorrRec :=
  let cur := st.1
  let original := (base.drop m).take term.length
  let e := m + term.length
  let ctx := pyLower ((cur.take (min cur.length (e + 50))).drop (m - 50))
  match rules.find? (fun tc => trigFound tc.1 ctx) with
  | none => st
  | some tc =>
    let corrected := mirrorCase original tc.2
    (cur.take m ++ corrected ++ cur.drop e, st.2 ++ [⟨original, corrected, m⟩])

/-- One rule of the context pass: every occurrence of the term, with the
    occurrence list computed once on the text at rule entry. -/
def ctxApplyRule (st : Str × List CorrRec) (rule : Str × List (Trig × Str)) :
    Str × List CorrRec :=
  (findWordMatches rule.1 st.1).foldl (ctxApplyMatch rule.2 rule.1 st.1) st

/-- BPPhilosophySystem._apply_context_corrections (lines 1004-1092). -/
def applyContextCorrections (text : Str) : Str × List CorrRec :=
  contextRules.foldl ctxApplyRule (text, [])

/-- BPPhilosophySystem.find_and_correct_terms (lines 789-855): fuzzy name
    pass on the input, exact-dictionary pass on its result, context pass
    last, with the records concatenated in that order. -/
def findAndCorrectTerms (corrKeys : List Str) (variants : List (Str × Str))
    (dict : List (Str × Str)) (text : Str) : Str × List CorrRec :=
  let fz := fuzzyCorrectNames corrKeys variants text
  let ex := findAndCorrectExact dict fz.1
  let cx := applyContextCorrections ex.text
  (cx.1, fz.2 ++ ex.records ++ cx.2)

/-! ### Dictionary construction (bp_philosophy.py _build_corrections) -/

/-- Python dict assignment self.corrections[k] = v: replace in place if the
    key exists, append otherwise. -/
def dictAssign (m : List (Str × Str)) (k v : Str) : List (Str × Str) :=
  if m.any (fun p => p.1 = k) then m.map (fun p => if p.1 = k then (k, v) else p)
  else m ++ [(k, v)]

/-- The corrections map built by iterating the category tables in their
    fixed order and assigning each (variant.lower(), canonical) pair
    (bp_philosophy.py lines 552-593 and 783-787). -/
def buildMap (pairs : List (Str × Str)) : List (Str × Str) :=
  pairs.foldl (fun m p => dictAssign m p.1 p.2) []

/-- Dict lookup (first entry with the key; keys are unique under
    dictAssign insertion). -/
def lookupKey : List (Str × Str) → Str → Option Str
  | [], _ => none
  | p :: m, k => if p.1 = k then some p.2 else lookupKey m k

/-- The value bound by the last insertion of a key, if any. -/
def lastBindingOf (pairs : List (Str × Str)) (k : Str) : Option Str :=
  ((pairs.filter (fun p => p.1 = k)).map (fun p => p.2)).getLast?

/-- The value bound by the first insertion of a key, if any (the behavior
    the specification claims). -/
def firstBindingOf (pairs : List (Str × Str)) (k : Str) : Option Str :=
  ((pairs.filter (fun p => p.1 = k)).map (fun p => p.2)).head?

/-! ### The cache (utils.py TextProcessingCache, lines 154-229) -/

/-- _get_cache_key builds md5(f-string of text:operation:model); the key is
    modelled by the hashed content itself: md5 is deterministic, so equal
    contents give equal keys, and the concrete keys used below are assumed
    collision-free. -/
def getCacheKeyContent (text op model : Str) : Str :=
  text ++ [':'] ++ op ++ [':'] ++ model

/-- Cache state: the two namespace key sets in insertion order, the shared
    access-times dict, and a monotone counter standing for time.time(). -/
structure Cache where
  maxSize : Nat
  llm : List Str
  bp : List Str
  access : List (Str × Nat)
  clock : Nat
deriving DecidableEq

/-- Stable insertion into a list sorted by ascending access time. -/
def insByVal (x : Str × Nat) : List (Str × Nat) → List (Str × Nat)
  | [] => [x]
  | y :: ys => if y.2 < x.2 then y :: insByVal x ys else x :: y :: ys

/-- Python sorted(..., key=value): stable ascending sort. -/
def sortByVal : List (Str × Nat) → List (Str × Nat)
  | [] => []
  | x :: xs => insByVal x (sortByVal xs)

/-- _cleanup_cache (lines 168-178) applied to one namespace: when that
    namespace is at capacity, the globally oldest int(max_size*0.2) keys
    (= max_size / 5 at the sizes used here) are deleted from that namespace
    where present, and from the shared access-times dict unconditionally. -/
def cleanupCache (c : Cache) (isLlm : Bool) : Cache :=
  let dictLen := if isLlm then c.llm.length else c.bp.length
  if c.maxSize ≤ dictLen then
    let removed := ((sortByVal c.access).take (c.maxSize / 5)).map (fun p => p.1)
    { c with
      llm := if isLlm then c.llm.filter (fun k => !(k ∈ removed)) else c.llm
      bp := if isLlm then c.bp else c.bp.filter (fun k => !(k ∈ removed))
      access := c.access.filter (fun p => !(p.1 ∈ removed)) }
  else c

/-- Python dict key insertion for a namespace store. -/
def dictAdd (l : List Str) (k : Str) : List Str :=
  if k ∈ l then l else l ++ [k]

/-- Assignment into the access-times dict. -/
def accessAssign (a : List (Str × Nat)) (k : Str) (t : Nat) : List (Str × Nat) :=
  if a.any (fun p => p.1 = k) then a.map (fun p => if p.1 = k then (k, t) else p)
  else a ++ [(k, t)]

/-- set_llm_response (lines 188-196): key, cleanup of the llm namespace,
    store, access-time update (two time.time() reads). -/
def setLlmResponse (c : Cache) (text model : Str) : Cache :=
  let key := getCacheKeyContent text ((r"llm").data) model
  let c1 := cleanupCache c true
  { c1 with
    llm := dictAdd c1.llm key
    access := accessAssign c1.access key (c1.clock + 2)
    clock := c1.clock + 2 }

/-- set_bp_corrections (lines 206-215), with the default model "". -/
def setBpCorrections (c : Cache) (text : Str) : Cache :=
  let key := getCacheKeyContent text ((r"bp").data) []
  let c1 := cleanupCache c false
  { c1 with
    bp := dictAdd c1.bp key
    access := accessAssign c1.access key (c1.clock + 2)
    clock := c1.clock + 2 }

/-- The empty cache with a given capacity. -/
def emptyCache (maxSize : Nat) : Cache := ⟨maxSize, [], [], [], 0⟩

/-! ### Scan-cost instrumentation (bp_philosophy_optimized.py lines 350-409) -/

/-- Number of positions probed by one finditer scan of a literal pattern. -/
def probeCountFrom (pat text : Str) (i fuel : Nat) : Nat :=
  match fuel with
  | 0 => 0
  | f + 1 =>
    if i + pat.length ≤ text.length then
      if matchesAt pat text i then 1 + probeCountFrom pat text (i + pat.length) f
      else 1 + probeCountFrom pat text (i + 1) f
    else 0

/-- Probe count of a full scan. -/
def probeCount (pat text : Str) : Nat := probeCountFrom pat text 0 (text.length + 1)

/-- Number of finditer invocations (one full pass over the current text per
    dictionary pattern) performed by the optimized scan. -/
def scanPassCount (dict : List (Str × Str)) (st : OScanSt) : Nat :=
  match dict with
  | [] => 0
  | (p, c) :: rest => 1 + scanPassCount rest (oApplyPat st.text p c (findMatches p st.text) st)

/-- Total number of probed positions across all per-pattern passes. -/
def scanProbeCost (dict : List (Str × Str)) (st : OScanSt) : Nat :=
  match dict with
  | [] => 0
  | (p, c) :: rest =>
    probeCount p st.text + scanProbeCost rest (oApplyPat st.text p c (findMatches p st.text) st)

/-- Modelled from the claim wording of C2 (refinement target): an
    all-uppercase occurrence becomes the canonical in upper case, a
    title-case occurrence the capitalized canonical, any other occurrence
    the canonical lower-cased; a multi-token canonical (one containing a
    space) is emitted in its fixed casing. -/
def claimedReplacement (original correct : Str) : Str :=
  if ' ' ∈ correct then correct
  else if pyIsUpper original then pyUpper correct
  else if pyIsTitle original then pyCapitalize correct
  else pyLower correct

/-- Non-overlap of the spans of two correction records (position plus the
    length of the matched text). -/
def recDisjoint (r1 r2 : CorrRec) : Prop :=
  r1.position + r1.original.length ≤ r2.position ∨
  r2.position + r2.original.length ≤ r1.position

/-- The span tracked in corrected_positions for a record (start plus the
    replacement length). -/
def spanOfC (r : CorrRec) : Nat × Nat := (r.position, r.position + r.corrected.length)

/-- Loop invariant of the exact pass: the tracked positions are exactly
    the tracked spans of the records, which are pairwise disjoint. -/
def scanInv (st : ScanSt) : Prop :=
  st.positions = st.records.map spanOfC ∧ st.records.Pairwise recDisjoint

/-! ### Concrete instantiations

Each of the following dictionary fragments is the restriction of the
source dictionaries (in their sorted processing order, longest key first,
ties in insertion order) to the entries that match the text under study at
some stage of the scan; entries that never match change neither the text
nor the records and are omitted.  The full-dictionary behavior on these
texts was traced against bp_philosophy.py entry by entry. -/

/-- Entries of self.corrections matching the C1 text:
    capacida di -> capacidade and virdade -> verdade. -/
def c1Dict : List (Str × Str) :=
  [((r"capacida di").data, (r"capacidade").data),
   ((r"virdade").data, (r"verdade").data)]

/-- A name-variant entry (socrates -> Sócrates) making the fuzzy pass take
    its regular path; the C1 text has no capitalized tokens, so no
    candidate spans arise. -/
def c1Variants : List (Str × Str) :=
  [((r"socrates").data, (r"Sócrates").data)]

/-- C1 counterexample input. -/
def c1Text : Str := (r"capacida divirdade").data

/-- The dictionary entry cauza -> causa (single-token canonical). -/
def c2Dict : List (Str × Str) := [((r"cauza").data, (r"causa").data)]

/-- The dictionary entry tomas de aquino -> Tomás de Aquino (multi-token
    canonical). -/
def c2DictM : List (Str × Str) :=
  [((r"tomas de aquino").data, (r"Tomás de Aquino").data)]

/-- Entries of self.corrections matching the C3 text:
    josé oscar de almeida marques (29), santo agostinho (15),
    agostinho (9), in processing order (decreasing length). -/
def c3Dict : List (Str × Str) :=
  [((r"josé oscar de almeida marques").data, (r"José Oscar de Almeida Marques").data),
   ((r"santo agostinho").data, (r"Agostinho de Hipona").data),
   ((r"agostinho").data, (r"Agostinho").data)]

/-- C3 counterexample input: the 29-character name is followed by text
    which together with its final s spells santo agostinho. -/
def c3Text : Str := (r"josé oscar de almeida marquesanto agostinho").data

/-- Entries of self.corrections matching factusr and its correction:
    factusr -> actus and actus -> ato, in processing order. -/
def c4Dict : List (Str × Str) :=
  [((r"factusr").data, (r"actus").data), ((r"actus").data, (r"ato").data)]

/-- C4 counterexample input. -/
def c4Text : Str := (r"factusr").data

/-- The (variant.lower(), canonical) insertion sequence of the two
    contemporary_philosophers entries sharing the variant Cunha, in table
    order (Newton Cunha first, Célio da Cunha later). -/
def c5Pairs : List (Str × Str) :=
  [((r"newton cunha").data, (r"Newton Cunha").data),
   ((r"n. cunha").data, (r"Newton Cunha").data),
   ((r"cunha").data, (r"Newton Cunha").data),
   ((r"newton da cunha").data, (r"Newton Cunha").data),
   ((r"célio da cunha").data, (r"Célio da Cunha").data),
   ((r"c. da cunha").data, (r"Célio da Cunha").data),
   ((r"cunha").data, (r"Célio da Cunha").data),
   ((r"célio cunha").data, (r"Célio da Cunha").data)]

/-- The two highest-scoring name variants for the C6 candidate, in their
    insertion order among the Tomás de Aquino variants; every other entry
    of the full index scores strictly below these two. -/
def c6Variants : List (Str × Str) :=
  [((r"tomaz de aquino").data, (r"Tomás de Aquino").data),
   ((r"tomas de aquino").data, (r"Tomás de Aquino").data)]

/-- C6 candidate span text. -/
def c6Cand : Str := (r"Tomaz de Aquina").data

/-- C6 counterexample input: the candidate followed by the word aquino,
    which triggers the duplicated-tail safety skip. -/
def c6Text : Str := (r"Tomaz de Aquina aquino").data

/-- C7 failing input from the specification scenario. -/
def c7Text : Str := (r"na ontologia, o ser é fundamental").data

/-- C8 counterexample run: capacity 5, one bp entry, then six llm entries. -/
def c8Final : Cache :=
  ([(r"t1").data, (r"t2").data, (r"t3").data, (r"t4").data,
    (r"t5").data, (r"t6").data]).foldl
    (fun c t => setLlmResponse c t [])
    (setBpCorrections (emptyCache 5) ((r"x").data))

/-- Two entries of the optimized corrections dictionary. -/
def c10Dict : List (Str × Str) :=
  [((r"cauza").data, (r"causa").data), ((r"virdade").data, (r"verdade").data)]

/-- A 63-character text matching no dictionary pattern. -/
def c10Text : Str :=
  (r"a filosofia medieval estuda a relacao entre a fe e a razao hoje").data

/-! ## Theorems -/

/-- C1 counterexample: a single find_and_correct_terms invocation on the
    text capacida divirdade applies two corrections whose recorded spans
    overlap: capacida di -> capacidade at position 0 replaces 11
    characters (span 0..11), after which virdade is matched in the
    shortened text and recorded at position 10 (span 10..17); the claimed
    pairwise non-overlap of applied spans is violated. -/
theorem c1_counterexample :
    (findAndCorrectTerms [] c1Variants c1Dict c1Text).2 =
      [⟨(r"capacida di").data, (r"capacidade").data, 0⟩,
       ⟨(r"virdade").data, (r"verdade").data, 10⟩] ∧
    ¬ recDisjoint ⟨(r"capacida di").data, (r"capacidade").data, 0⟩
        ⟨(r"virdade").data, (r"verdade").data, 10⟩ := by
  constructor
  · decide
  · unfold recDisjoint
    decide

/-- C2: the rewrite of find_and_correct_terms mirrors the matched
    occurrence casing for single-token canonicals (ALLCAPS to upper case,
    title case to the capitalized canonical, anything else to the
    canonical lower-cased) and emits multi-token canonicals in their fixed
    casing; in particular CAUZA becomes CAUSA, Cauza becomes Causa, cauza
    becomes causa, and TOMAS DE AQUINO becomes Tomás de Aquino. -/
theorem c2_case_preservation :
    (∀ original correct : Str,
      applyCasing original correct = claimedReplacement original correct) ∧
    (findAndCorrectExact c2Dict ((r"CAUZA").data)).text = (r"CAUSA").data ∧
    (findAndCorrectExact c2Dict ((r"Cauza").data)).text = (r"Causa").data ∧
    (findAndCorrectExact c2Dict ((r"cauza").data)).text = (r"causa").data ∧
    (findAndCorrectExact c2DictM ((r"TOMAS DE AQUINO").data)).text =
      (r"Tomás de Aquino").data := by
  refine ⟨fun original correct => ?_, by decide, by decide, by decide, by decide⟩
  unfold applyCasing claimedReplacement mirrorCase
  rfl

/-- C3 counterexample: on the C3 text, the candidates santo agostinho
    (matched at position 28 of the text as it stands when that pattern is
    reached) and agostinho (matched at position 34) cover overlapping
    regions; the longer pattern santo agostinho is not applied (it
    overlaps the already-applied 29-character name correction), while the
    shorter agostinho is applied, contradicting the claim that the longer
    pattern always wins. -/
theorem c3_counterexample :
    (findAndCorrectExact c3Dict c3Text).records =
      [⟨(r"josé oscar de almeida marques").data,
        (r"José Oscar de Almeida Marques").data, 0⟩,
       ⟨(r"agostinho").data, (r"agostinho").data, 34⟩] ∧
    findMatches ((r"santo agostinho").data)
        (findAndCorrectExact [((r"josé oscar de almeida marques").data,
          (r"José Oscar de Almeida Marques").data)] c3Text).text = [28] ∧
    (34 < 28 + ((r"santo agostinho").data).length ∧
     28 < 34 + ((r"agostinho").data).length) ∧
    ((r"agostinho").data).length < ((r"santo agostinho").data).length ∧
    (∀ r ∈ (findAndCorrectExact c3Dict c3Text).records,
      r.original ≠ (r"santo agostinho").data) := by
  refine ⟨by decide, by decide, by decide, by decide, by decide⟩

/-- C4 counterexample: the exact pass rewrites factusr to actus, and a
    second exact pass on the result applies the correction
    actus -> ato, so the corrections of the second pass are not empty. -/
theorem c4_counterexample :
    (findAndCorrectExact c4Dict ((findAndCorrectExact c4Dict c4Text).text)).records =
      [⟨(r"actus").data, (r"ato").data, 0⟩] ∧
    (findAndCorrectExact c4Dict ((findAndCorrectExact c4Dict c4Text).text)).records ≠
      [] := by
  refine ⟨by decide, by decide⟩

/-- C5 counterexample: the variant cunha is inserted first for
    Newton Cunha and later for Célio da Cunha; the built corrections map
    binds it to Célio da Cunha, the last insertion, not the first as
    claimed. -/
theorem c5_counterexample :
    lookupKey (buildMap c5Pairs) ((r"cunha").data) = some ((r"Célio da Cunha").data) ∧
    firstBindingOf c5Pairs ((r"cunha").data) = some ((r"Newton Cunha").data) ∧
    ((r"Célio da Cunha").data : Str) ≠ (r"Newton Cunha").data := by
  refine ⟨by decide, by decide, by decide⟩

set_option maxRecDepth 40000 in
/-- C6 counterexample: the span Tomaz de Aquina has no exact hit in the
    name-variant index, its best similarity ratio is 14/15, at least
    0.90, yet the fuzzy pass leaves the text Tomaz de Aquina aquino
    unchanged (the duplicated-tail safety rule skips the rewrite), so the
    claimed if-and-only-if characterization by the threshold fails. -/
theorem c6_counterexample :
    lookupV c6Variants (normalize c6Cand) = none ∧
    (bestNameMatch [] c6Variants c6Cand).2 = ⟨28, 30⟩ ∧
    scoreLt (⟨28, 30⟩ : Score) ⟨9, 10⟩ = false ∧
    scoreVal ⟨28, 30⟩ = 14 / 15 ∧ (9 : ℚ) / 10 ≤ 14 / 15 ∧
    fuzzyCorrectNames [] c6Variants c6Text = (c6Text, []) := by
  refine ⟨by decide, by decide, by decide, ?_, by norm_num, by decide⟩
  unfold scoreVal
  norm_num

/-- C7: on the failing input the context pass leaves the text unchanged,
    with ser still lower-case (its case-mirroring maps the target form Ser
    back to the original casing), while recording two corrections for the
    same occurrence; the claim (and the source comments) expect
    o Ser é fundamental. -/
theorem c7_code_behavior :
    (applyContextCorrections c7Text).1 = c7Text ∧
    (applyContextCorrections c7Text).2 =
      [⟨(r"ser").data, (r"ser").data, 16⟩,
       ⟨(r"ser").data, (r"ser").data, 16⟩] := by
  refine ⟨by decide, by decide⟩

/-- C8 counterexample: with capacity 5, one bp-namespace entry followed by
    six llm-namespace sets leaves the llm namespace with 6 entries: the
    eviction triggered by the sixth set removes only the globally oldest
    key, which belongs to the bp namespace, so nothing is evicted from the
    llm namespace and its size exceeds max_size. -/
theorem c8_counterexample :
    c8Final.maxSize = 5 ∧ c8Final.llm.length = 6 ∧
    ¬ (c8Final.llm.length ≤ c8Final.maxSize) := by
  refine ⟨by decide, by decide, by decide⟩

/-- C9 counterexample: the triples (a:llm:b, llm, empty) and
    (a, llm, b:llm:) are distinct, yet their cache-key contents coincide,
    so the cache keys (md5 of the content) coincide as well. -/
theorem c9_counterexample :
    getCacheKeyContent ((r"a:llm:b").data) ((r"llm").data) [] =
      getCacheKeyContent ((r"a").data) ((r"llm").data) ((r"b:llm:").data) ∧
    ((r"a:llm:b").data : Str) ≠ (r"a").data := by
  refine ⟨by decide, by decide⟩

/-- C10 counterexample: on a two-entry dictionary fragment the scan makes
    two finditer passes over the text, not one, and probes 116 positions
    on a 63-character match-free text, exceeding text length plus total
    pattern length plus number of matches (75). -/
theorem c10_counterexample :
    scanPassCount c10Dict ⟨c10Text, []⟩ = 2 ∧ (2 : Nat) ≠ 1 ∧
    scanProbeCost c10Dict ⟨c10Text, []⟩ = 116 ∧
    ¬ (scanProbeCost c10Dict ⟨c10Text, []⟩ ≤
        c10Text.length +
          (((r"cauza").data).length + ((r"virdade").data).length) +
          (findAndCorrectOpt c10Dict c10Text).records.length) := by
  refine ⟨by decide, by decide, by decide, by decide⟩

/-- C10 amended: the optimized scan performs exactly one finditer pass
    over the (current) text per dictionary pattern — the number of passes
    equals the dictionary size, for every dictionary and every text. -/
theorem c10_amended (dict : List (Str × Str)) (st : OScanSt) :
    scanPassCount dict st = dict.length := by
  induction dict generalizing st with
  | nil => rfl
  | cons pc rest ih =>
    cases pc with
    | mk p c =>
      simp only [scanPassCount, ih, List.length_cons]
      omega

lemma applyOne_records_extends (base pat correct : Str) (st : ScanSt) (m : Nat) :
    ∃ tl, (applyOne base pat correct st m).records = st.records ++ tl := by
  unfold applyOne
  split
  · exact ⟨[], by simp⟩
  · exact ⟨_, rfl⟩

lemma applyPat_records_extends (base pat correct : Str) :
    ∀ (ms : List Nat) (st : ScanSt),
      ∃ tl, (applyPat base pat correct ms st).records = st.records ++ tl := by
  intro ms
  induction ms with
  | nil => intro st; exact ⟨[], by simp [applyPat]⟩
  | cons m ms ih =>
    intro st
    obtain ⟨t1, h1⟩ := applyOne_records_extends base pat correct st m
    obtain ⟨t2, h2⟩ := ih (applyOne base pat correct st m)
    refine ⟨t1 ++ t2, ?_⟩
    have hstep : applyPat base pat correct (m :: ms) st =
        applyPat base pat correct ms (applyOne base pat correct st m) := rfl
    rw [hstep, h2, h1, List.append_assoc]

lemma runPats_records_extends :
    ∀ (dict : List (Str × Str)) (st : ScanSt),
      ∃ tl, (runPats dict st).records = st.records ++ tl := by
  intro dict
  induction dict with
  | nil => intro st; exact ⟨[], by simp [runPats]⟩
  | cons pc rest ih =>
    obtain ⟨p, c⟩ := pc
    intro st
    obtain ⟨t1, h1⟩ := applyPat_records_extends st.text p c (findMatches p st.text) st
    obtain ⟨t2, h2⟩ := ih (applyPat st.text p c (findMatches p st.text) st)
    refine ⟨t1 ++ t2, ?_⟩
    have hstep : runPats ((p, c) :: rest) st =
        runPats rest (applyPat st.text p c (findMatches p st.text) st) := rfl
    rw [hstep, h2, h1, List.append_assoc]

lemma applyOne_of_records_eq (base pat correct : Str) (st : ScanSt) (m : Nat)
    (h : (applyOne base pat correct st m).records = st.records) :
    applyOne base pat correct st m = st := by
  unfold applyOne at h ⊢
  split at h
  · split
    · rfl
    · simp_all
  · have := congrArg List.length h
    simp at this

lemma applyPat_of_records_eq (base pat correct : Str) :
    ∀ (ms : List Nat) (st : ScanSt),
      (applyPat base pat correct ms st).records = st.records →
      applyPat base pat correct ms st = st := by
  intro ms
  induction ms with
  | nil => intro st _; rfl
  | cons m ms ih =>
    intro st h
    have hstep : applyPat base pat correct (m :: ms) st =
        applyPat base pat correct ms (applyOne base pat correct st m) := rfl
    rw [hstep] at h
    obtain ⟨t1, h1⟩ := applyOne_records_extends base pat correct st m
    obtain ⟨t2, h2⟩ := applyPat_records_extends base pat correct ms
      (applyOne base pat correct st m)
    rw [h2, h1] at h
    have hlen := congrArg List.length h
    simp only [List.append_assoc, List.length_append] at hlen
    have ht1 : t1 = [] := List.length_eq_zero.mp (by omega)
    have ht2 : t2 = [] := List.length_eq_zero.mp (by omega)
    have hone : applyOne base pat correct st m = st := by
      apply applyOne_of_records_eq
      rw [h1, ht1, List.append_nil]
    rw [hone] at h2
    rw [hstep, hone]
    exact ih st (by rw [h2, ht2, List.append_nil])

lemma runPats_of_records_eq :
    ∀ (dict : List (Str × Str)) (st : ScanSt),
      (runPats dict st).records = st.records → runPats dict st = st := by
  intro dict
  induction dict with
  | nil => intro st _; rfl
  | cons pc rest ih =>
    obtain ⟨p, c⟩ := pc
    intro st h
    have hstep : runPats ((p, c) :: rest) st =
        runPats rest (applyPat st.text p c (findMatches p st.text) st) := rfl
    rw [hstep] at h
    obtain ⟨t1, h1⟩ := applyPat_records_extends st.text p c (findMatches p st.text) st
    obtain ⟨t2, h2⟩ := runPats_records_extends rest
      (applyPat st.text p c (findMatches p st.text) st)
    rw [h2, h1] at h
    have hlen := congrArg List.length h
    simp only [List.append_assoc, List.length_append] at hlen
    have ht1 : t1 = [] := List.length_eq_zero.mp (by omega)
    have ht2 : t2 = [] := List.length_eq_zero.mp (by omega)
    have hone : applyPat st.text p c (findMatches p st.text) st = st := by
      apply applyPat_of_records_eq
      rw [h1, ht1, List.append_nil]
    rw [hone] at h2
    rw [hstep, hone]
    exact ih st (by rw [h2, ht2, List.append_nil])

/-- C4 amended: the exact pass is idempotent on the texts it leaves
    uncorrected: if a pass reports no corrections, the pass on its output
    reports none either.  (In general a second pass can report new
    corrections, as the counterexample shows.) -/
theorem c4_amended (dict : List (Str × Str)) (text : Str)
    (h : (findAndCorrectExact dict text).records = []) :
    (findAndCorrectExact dict ((findAndCorrectExact dict text).text)).records = [] := by
  have heq : runPats dict ⟨text, [], []⟩ = ⟨text, [], []⟩ :=
    runPats_of_records_eq dict ⟨text, [], []⟩ (by simpa [findAndCorrectExact] using h)
  have htext : (findAndCorrectExact dict text).text = text := by
    rw [findAndCorrectExact, heq]
  rw [htext]
  exact h

/-- Witness for C4 amended at the entry cauza -> causa and a text the pass
    leaves uncorrected. -/
theorem c4_amended_witness :
    (findAndCorrectExact [((r"cauza").data, (r"causa").data)] ((r"xyz").data)).records
      = [] ∧
    (findAndCorrectExact [((r"cauza").data, (r"causa").data)]
      ((findAndCorrectExact [((r"cauza").data, (r"causa").data)]
        ((r"xyz").data)).text)).records = [] :=
  ⟨by decide, c4_amended _ _ (by decide)⟩

lemma lookup_append_single (m : List (Str × Str)) (a v k : Str)
    (hna : m.any (fun p => p.1 = a) = false) :
    lookupKey (m ++ [(a, v)]) k = if k = a then some v else lookupKey m k := by
  induction m with
  | nil =>
    simp only [List.nil_append, lookupKey]
    by_cases hk : k = a
    · rw [if_pos (hk.symm), if_pos hk]
    · rw [if_neg (fun h => hk h.symm), if_neg hk]
  | cons x m ih =>
    simp only [List.any_cons, Bool.or_eq_false_iff] at hna
    have hxa : ¬ x.1 = a := by simpa using hna.1
    have ih2 := ih hna.2
    simp only [List.cons_append, lookupKey]
    by_cases hxk : x.1 = k
    · have hk : ¬ k = a := fun h => hxa (hxk.trans h)
      rw [if_pos hxk, if_neg hk, if_pos hxk]
    · rw [if_neg hxk, if_neg hxk]
      exact ih2

lemma lookup_map_assign (m : List (Str × Str)) (a v k : Str) :
    lookupKey (m.map (fun p => if p.1 = a then (a, v) else p)) k =
      if k = a then (if m.any (fun p => p.1 = a) then some v else none)
      else lookupKey m k := by
  induction m with
  | nil =>
    simp only [List.map_cons, lookupKey, List.any_eq_true]
    by_cases hk : k = a
    · simp [hk]
    · simp [hk]
  | cons x m ih =>
    simp only [List.map_cons, List.any_cons]
    by_cases hxa : x.1 = a
    · rw [if_pos hxa]
      by_cases hk : k = a
      · simp only [lookupKey]
        rw [if_pos hk.symm, if_pos hk]
        have hdx : decide (x.1 = a) = true := by simp [hxa]
        simp [hdx, Bool.true_or]
      · have hak : ¬ a = k := fun h => hk h.symm
        have hxk : ¬ x.1 = k := fun h => hk ((h.symm.trans hxa).symm).symm
        simp only [lookupKey]
        rw [if_neg hak, if_neg hxk, ih, if_neg hk, if_neg hk]
    · rw [if_neg hxa]
      by_cases hxk : x.1 = k
      · have hk : ¬ k = a := fun h => hxa (hxk.trans h)
        simp only [lookupKey]
        rw [if_pos hxk, if_neg hk, if_pos hxk]
      · simp only [lookupKey]
        rw [if_neg hxk, if_neg hxk, ih]
        by_cases hk : k = a
        · rw [if_pos hk, if_pos hk]
          have hdx : decide (x.1 = a) = false := by simp [hxa]
          simp only [hdx, Bool.false_or]
        · rw [if_neg hk, if_neg hk]

lemma lookup_dictAssign (m : List (Str × Str)) (a v k : Str) :
    lookupKey (dictAssign m a v) k = if k = a then some v else lookupKey m k := by
  unfold dictAssign
  by_cases hany : (m.any fun p => decide (p.1 = a)) = true
  · rw [if_pos hany, lookup_map_assign, if_pos hany]
  · have hf : (m.any fun p => decide (p.1 = a)) = false := by
      cases h2 : m.any fun p => decide (p.1 = a)
      · rfl
      · exact absurd h2 hany
    rw [if_neg hany, lookup_append_single m a v k hf]

lemma lastBindingOf_cons (p : Str × Str) (l : List (Str × Str)) (k : Str) :
    lastBindingOf (p :: l) k =
      Option.orElse (lastBindingOf l k)
        (fun _ => if p.1 = k then some p.2 else none) := by
  unfold lastBindingOf
  rw [List.filter_cons]
  by_cases hp : p.1 = k
  · rw [if_pos (by simpa using hp), List.map_cons, List.getLast?_cons]
    cases hl : ((l.filter (fun q => decide (q.1 = k))).map (fun q => q.2)).getLast? with
    | none => simp [hl, Option.orElse, hp]
    | some v => simp [hl, Option.orElse]
  · rw [if_neg (by simpa using hp)]
    cases hl : ((l.filter (fun q => decide (q.1 = k))).map (fun q => q.2)).getLast? with
    | none => simp [Option.orElse, hp]
    | some v => simp [Option.orElse]

/-- C5 amended: the corrections map built by the dictionary builder binds
    every duplicated variant to the canonical of its last insertion in the
    fixed category iteration order (later duplicates overwrite earlier
    ones), for every insertion sequence and every variant. -/
theorem c5_amended (pairs : List (Str × Str)) (k : Str) :
    lookupKey (buildMap pairs) k = lastBindingOf pairs k := by
  suffices h : ∀ (l : List (Str × Str)) (m : List (Str × Str)),
      lookupKey (l.foldl (fun acc p => dictAssign acc p.1 p.2) m) k =
        Option.orElse (lastBindingOf l k) (fun _ => lookupKey m k) by
    have h2 := h pairs []
    rw [buildMap, h2]
    cases hl : lastBindingOf pairs k with
    | none => simp [hl, Option.orElse, lookupKey]
    | some v => simp [hl, Option.orElse]
  intro l
  induction l with
  | nil =>
    intro m
    simp [lastBindingOf, Option.orElse]
  | cons p l ih =>
    intro m
    have hstep : ((p :: l).foldl (fun acc q => dictAssign acc q.1 q.2) m) =
        (l.foldl (fun acc q => dictAssign acc q.1 q.2) (dictAssign m p.1 p.2)) := rfl
    rw [hstep, ih, lastBindingOf_cons, lookup_dictAssign]
    cases hl : lastBindingOf l k with
    | none =>
      by_cases hp : p.1 = k
      · rw [if_pos hp, if_pos hp.symm]
        simp [Option.orElse]
      · rw [if_neg hp, if_neg (fun h => hp h.symm)]
        simp [Option.orElse]
    | some v => simp [Option.orElse]

lemma colon_split (a a' rest1 rest2 : Str) (ha : ':' ∉ a) (ha' : ':' ∉ a')
    (h : a ++ ':' :: rest1 = a' ++ ':' :: rest2) : a = a' ∧ rest1 = rest2 := by
  induction a generalizing a' with
  | nil =>
    cases a' with
    | nil => simpa using h
    | cons c as =>
      simp only [List.nil_append, List.cons_append, List.cons.injEq] at h
      exact absurd (h.1 ▸ List.mem_cons_self c as) ha'
  | cons c as ih =>
    cases a' with
    | nil =>
      simp only [List.cons_append, List.nil_append, List.cons.injEq] at h
      exact absurd (h.1 ▸ List.mem_cons_self c as) ha
    | cons c' as' =>
      simp only [List.cons_append, List.cons.injEq] at h
      have hmem : ':' ∉ as := fun hm => ha (List.mem_cons_of_mem c hm)
      have hmem' : ':' ∉ as' := fun hm => ha' (List.mem_cons_of_mem c' hm)
      obtain ⟨h1, h2⟩ := ih as' hmem hmem' h.2
      exact ⟨by rw [h.1, h1], h2⟩

/-- C9 amended: the cache-key contents (the strings handed to md5) are
    injective on triples whose components are free of the colon
    separator; with colons inside the text or model the contents of
    distinct triples can coincide, as the counterexample shows. -/
theorem c9_amended (t1 o1 m1 t2 o2 m2 : Str)
    (ht1 : ':' ∉ t1) (ho1 : ':' ∉ o1) (_hm1 : ':' ∉ m1)
    (ht2 : ':' ∉ t2) (ho2 : ':' ∉ o2) (_hm2 : ':' ∉ m2) :
    getCacheKeyContent t1 o1 m1 = getCacheKeyContent t2 o2 m2 ↔
      (t1 = t2 ∧ o1 = o2 ∧ m1 = m2) := by
  constructor
  · intro h
    unfold getCacheKeyContent at h
    have hshape : t1 ++ ':' :: (o1 ++ ':' :: m1) = t2 ++ ':' :: (o2 ++ ':' :: m2) := by
      simpa [List.append_assoc] using h
    obtain ⟨he1, he2⟩ := colon_split t1 t2 _ _ ht1 ht2 hshape
    obtain ⟨he3, he4⟩ := colon_split o1 o2 _ _ ho1 ho2 he2
    exact ⟨he1, he3, he4⟩
  · rintro ⟨rfl, rfl, rfl⟩
    rfl

/-- C6 amended: the fuzzy pass rewrites a candidate span if and only if
    its best similarity score is at least 0.90 (so exactly 0.90 is
    accepted and anything below is not), a best canonical was found, and
    the safety rules pass: the normalized span differs from the normalized
    canonical and the replacement would not duplicate an adjacent word;
    the threshold alone is not equivalent to rewriting. -/
theorem c6_amended (corrKeys : List Str) (variants : List (Str × Str))
    (st : FuzzSt) (sp : NSpan) :
    fuzzyStep corrKeys variants st sp ≠ st ↔
      ((bestNameMatch corrKeys variants sp.sub).1 ≠ [] ∧
       scoreLt (bestNameMatch corrKeys variants sp.sub).2 ⟨9, 10⟩ = false ∧
       normalize sp.sub ≠ normalize (bestNameMatch corrKeys variants sp.sub).1 ∧
       normalize (lastOrEmpty (splitWs
           (titlePortuguese (bestNameMatch corrKeys variants sp.sub).1))) ∉
         (((splitWs ((st.text.drop (((sp.stop : Int) + st.offset).toNat)).take 12)).map
           normalize).take 2)) := by
  by_cases h1 : (bestNameMatch corrKeys variants sp.sub).1 = []
  · simp [fuzzyStep, h1]
  · by_cases h2 : scoreLt (bestNameMatch corrKeys variants sp.sub).2 ⟨9, 10⟩ = true
    · simp [fuzzyStep, h1, h2]
    · have h2f : scoreLt (bestNameMatch corrKeys variants sp.sub).2 ⟨9, 10⟩ = false := by
        revert h2
        cases scoreLt (bestNameMatch corrKeys variants sp.sub).2 ⟨9, 10⟩ <;> simp
      by_cases h3 : normalize sp.sub = normalize (bestNameMatch corrKeys variants sp.sub).1
      · simp [fuzzyStep, h1, h2f, h3]
      · by_cases h4 : normalize (lastOrEmpty (splitWs
            (titlePortuguese (bestNameMatch corrKeys variants sp.sub).1))) ∈
            (((splitWs ((st.text.drop (((sp.stop : Int) + st.offset).toNat)).take 12)).map
              normalize).take 2)
        · simp [fuzzyStep, h1, h2f, h3, h4]
        · have hne : fuzzyStep corrKeys variants st sp ≠ st := by
            intro heq
            have hrec := congrArg FuzzSt.records heq
            simp [fuzzyStep, h1, h2f, h3, h4] at hrec
          simp [h1, h2f, h3, h4, hne]

lemma mem_findFrom_bound (pat text : Str) :
    ∀ (fuel i m : Nat), m ∈ findFrom pat text i fuel → m + pat.length ≤ text.length := by
  intro fuel
  induction fuel with
  | zero =>
    intro i m h
    simp [findFrom] at h
  | succ f ih =>
    intro i m h
    rw [findFrom] at h
    split at h
    next hle =>
      split at h
      next =>
        rcases List.mem_cons.mp h with h1 | h1
        · subst h1; exact hle
        · exact ih _ _ h1
      next => exact ih _ _ h
    next => simp at h

lemma mem_findMatches_bound (pat text : Str) (m : Nat)
    (h : m ∈ findMatches pat text) : m + pat.length ≤ text.length :=
  mem_findFrom_bound pat text (text.length + 1) 0 m h

lemma overlapsAny_false {s e : Nat} {ps : List (Nat × Nat)}
    (h : overlapsAny s e ps = false) :
    ∀ p ∈ ps, e ≤ p.1 ∨ p.2 ≤ s := by
  intro p hp
  unfold overlapsAny at h
  rw [List.any_eq_false] at h
  have h2 := h p hp
  simp at h2
  omega

lemma applyOne_inv (base pat correct : Str) (st : ScanSt) (m : Nat)
    (hb : m + pat.length ≤ base.length)
    (hinv : scanInv st)
    (hlen : ∀ r ∈ (applyOne base pat correct st m).records,
      r.original.length = r.corrected.length) :
    scanInv (applyOne base pat correct st m) := by
  unfold applyOne at hlen ⊢
  by_cases hov : overlapsAny m (m + pat.length) st.positions = true
  · rw [if_pos hov]
    exact hinv
  · have hovf : overlapsAny m (m + pat.length) st.positions = false := by
      revert hov
      cases overlapsAny m (m + pat.length) st.positions <;> simp
    rw [if_neg (by simp [hovf])] at hlen ⊢
    have hor : ((base.drop m).take pat.length).length = pat.length := by
      simp only [List.length_take, List.length_drop]
      omega
    have hlenr : ((base.drop m).take pat.length).length =
        (applyCasing ((base.drop m).take pat.length) correct).length := by
      have hr := hlen ⟨(base.drop m).take pat.length,
        applyCasing ((base.drop m).take pat.length) correct, m⟩ (by simp)
      exact hr
    constructor
    · show st.positions ++ _ = _
      rw [List.map_append, hinv.1]
      simp [spanOfC]
    · rw [List.pairwise_append]
      refine ⟨hinv.2, by simp, ?_⟩
      intro a ha b hb2
      have hb3 : b = ⟨(base.drop m).take pat.length,
          applyCasing ((base.drop m).take pat.length) correct, m⟩ := by
        simpa using hb2
      subst hb3
      have hmem : spanOfC a ∈ st.positions := by
        rw [hinv.1]
        exact List.mem_map_of_mem spanOfC ha
      have hsep := overlapsAny_false hovf (spanOfC a) hmem
      have halen : a.original.length = a.corrected.length :=
        hlen a (List.mem_append_left _ ha)
      unfold spanOfC at hsep
      unfold recDisjoint
      simp only at hsep ⊢
      rw [hor]
      omega

lemma applyPat_inv (base pat correct : Str) :
    ∀ (ms : List Nat) (st : ScanSt),
      (∀ m ∈ ms, m + pat.length ≤ base.length) →
      scanInv st →
      (∀ r ∈ (applyPat base pat correct ms st).records,
        r.original.length = r.corrected.length) →
      scanInv (applyPat base pat correct ms st) := by
  intro ms
  induction ms with
  | nil =>
    intro st _ hinv _
    exact hinv
  | cons m ms ih =>
    intro st hbs hinv hlen
    have hstep : applyPat base pat correct (m :: ms) st =
        applyPat base pat correct ms (applyOne base pat correct st m) := rfl
    rw [hstep] at hlen ⊢
    obtain ⟨t2, h2⟩ := applyPat_records_extends base pat correct ms
      (applyOne base pat correct st m)
    have hlen1 : ∀ r ∈ (applyOne base pat correct st m).records,
        r.original.length = r.corrected.length := by
      intro r hr
      exact hlen r (by rw [h2]; exact List.mem_append_left _ hr)
    exact ih _ (fun x hx => hbs x (List.mem_cons_of_mem m hx))
      (applyOne_inv base pat correct st m (hbs m (List.mem_cons_self m ms)) hinv hlen1)
      hlen

lemma runPats_inv :
    ∀ (dict : List (Str × Str)) (st : ScanSt),
      scanInv st →
      (∀ r ∈ (runPats dict st).records, r.original.length = r.corrected.length) →
      scanInv (runPats dict st) := by
  intro dict
  induction dict with
  | nil =>
    intro st hinv _
    exact hinv
  | cons pc rest ih =>
    obtain ⟨p, c⟩ := pc
    intro st hinv hlen
    have hstep : runPats ((p, c) :: rest) st =
        runPats rest (applyPat st.text p c (findMatches p st.text) st) := rfl
    rw [hstep] at hlen ⊢
    obtain ⟨t2, h2⟩ := runPats_records_extends rest
      (applyPat st.text p c (findMatches p st.text) st)
    have hlen1 : ∀ r ∈ (applyPat st.text p c (findMatches p st.text) st).records,
        r.original.length = r.corrected.length := by
      intro r hr
      exact hlen r (by rw [h2]; exact List.mem_append_left _ hr)
    exact ih _ (applyPat_inv st.text p c (findMatches p st.text) st
      (fun m hm => mem_findMatches_bound p st.text m hm) hinv hlen1) hlen

/-- C1 amended: when every applied replacement preserves the length of the
    text it replaced, the spans recorded by the exact-dictionary pass are
    pairwise non-overlapping.  (With length-changing replacements, and
    across the fuzzy and context passes, spans can overlap, as the
    counterexample shows.) -/
theorem c1_amended (dict : List (Str × Str)) (text : Str)
    (h : ∀ r ∈ (findAndCorrectExact dict text).records,
      r.original.length = r.corrected.length) :
    (findAndCorrectExact dict text).records.Pairwise recDisjoint :=
  (runPats_inv dict ⟨text, [], []⟩ ⟨rfl, List.Pairwise.nil⟩ h).2

/-- Witness for C1 amended: a length-preserving run whose record spans are
    pairwise disjoint. -/
theorem c1_amended_witness :
    (∀ r ∈ (findAndCorrectExact [((r"cauza").data, (r"causa").data)]
        ((r"a cauza x").data)).records, r.original.length = r.corrected.length) ∧
    (findAndCorrectExact [((r"cauza").data, (r"causa").data)]
        ((r"a cauza x").data)).records.Pairwise recDisjoint :=
  ⟨by decide, c1_amended _ _ (by decide)⟩

lemma overlapsRecs_false {s e : Nat} {rs : List CorrRec}
    (h : overlapsRecs s e rs = false) :
    ∀ r ∈ rs, e ≤ r.position ∨ r.position + r.original.length ≤ s := by
  intro r hr
  unfold overlapsRecs at h
  rw [List.any_eq_false] at h
  have h2 := h r hr
  simp at h2
  omega

lemma oApplyOne_pairwise (base pat correct : Str) (st : OScanSt) (m : Nat)
    (hb : m + pat.length ≤ base.length)
    (h : st.records.Pairwise recDisjoint) :
    (oApplyOne base pat correct st m).records.Pairwise recDisjoint := by
  unfold oApplyOne
  by_cases hov : overlapsRecs m (m + pat.length) st.records = true
  · rw [if_pos hov]
    exact h
  · have hovf : overlapsRecs m (m + pat.length) st.records = false := by
      revert hov
      cases overlapsRecs m (m + pat.length) st.records <;> simp
    rw [if_neg (by simp [hovf])]
    have hor : ((base.drop m).take pat.length).length = pat.length := by
      simp only [List.length_take, List.length_drop]
      omega
    rw [List.pairwise_append]
    refine ⟨h, by simp, ?_⟩
    intro a ha b hb2
    have hb3 : b = ⟨(base.drop m).take pat.length,
        applyCasing ((base.drop m).take pat.length) correct, m⟩ := by
      simpa using hb2
    subst hb3
    have hsep := overlapsRecs_false hovf a ha
    unfold recDisjoint
    simp only
    rw [hor]
    omega

lemma oApplyPat_pairwise (base pat correct : Str) :
    ∀ (ms : List Nat) (st : OScanSt),
      (∀ m ∈ ms, m + pat.length ≤ base.length) →
      st.records.Pairwise recDisjoint →
      (oApplyPat base pat correct ms st).records.Pairwise recDisjoint := by
  intro ms
  induction ms with
  | nil =>
    intro st _ h
    exact h
  | cons m ms ih =>
    intro st hbs h
    exact ih _ (fun x hx => hbs x (List.mem_cons_of_mem m hx))
      (oApplyOne_pairwise base pat correct st m (hbs m (List.mem_cons_self m ms)) h)

lemma oRunPats_pairwise :
    ∀ (dict : List (Str × Str)) (st : OScanSt),
      st.records.Pairwise recDisjoint →
      (oRunPats dict st).records.Pairwise recDisjoint := by
  intro dict
  induction dict with
  | nil =>
    intro st h
    exact h
  | cons pc rest ih =>
    obtain ⟨p, c⟩ := pc
    intro st h
    exact ih _ (oApplyPat_pairwise st.text p c (findMatches p st.text) st
      (fun m hm => mem_findMatches_bound p st.text m hm) h)

/-- C3 amended: overlapping candidates are resolved by processing order
    (patterns in decreasing length, ties in insertion order; matches of a
    pattern in text order): a candidate is applied only if its span does
    not overlap an already-applied span, so at most one of two overlapping
    candidates is ever applied — but a longer candidate that was itself
    skipped does not block a shorter overlapping one (see the
    counterexample).  For the optimized scan the applied record spans are
    pairwise non-overlapping for every dictionary and text. -/
theorem c3_amended (dict : List (Str × Str)) (text : Str) :
    (findAndCorrectOpt dict text).records.Pairwise recDisjoint :=
  oRunPats_pairwise dict ⟨text, []⟩ List.Pairwise.nil

lemma mem_insByVal (x y : Str × Nat) :
    ∀ l, y ∈ insByVal x l ↔ y = x ∨ y ∈ l := by
  intro l
  induction l with
  | nil => simp [insByVal]
  | cons z zs ih =>
    unfold insByVal
    by_cases h : z.2 < x.2
    · rw [if_pos h]
      simp only [List.mem_cons, ih]
      tauto
    · rw [if_neg h]
      simp only [List.mem_cons]

lemma mem_sortByVal (y : Str × Nat) :
    ∀ l, y ∈ sortByVal l ↔ y ∈ l := by
  intro l
  induction l with
  | nil => simp [sortByVal]
  | cons z zs ih =>
    unfold sortByVal
    rw [mem_insByVal]
    simp [ih]

lemma length_insByVal (x : Str × Nat) :
    ∀ l, (insByVal x l).length = l.length + 1 := by
  intro l
  induction l with
  | nil => rfl
  | cons z zs ih =>
    unfold insByVal
    by_cases h : z.2 < x.2
    · rw [if_pos h]
      simp [ih]
    · rw [if_neg h]
      simp

lemma length_sortByVal :
    ∀ l : List (Str × Nat), (sortByVal l).length = l.length := by
  intro l
  induction l with
  | nil => rfl
  | cons z zs ih =>
    unfold sortByVal
    rw [length_insByVal, ih]
    rfl

lemma mem_dictAdd (l : List Str) (k k0 : Str) :
    k0 ∈ dictAdd l k ↔ k0 = k ∨ k0 ∈ l := by
  unfold dictAdd
  by_cases h : k ∈ l
  · rw [if_pos h]
    constructor
    · exact fun hm => Or.inr hm
    · rintro (rfl | hm)
      · exact h
      · exact hm
  · rw [if_neg h]
    simp only [List.mem_append, List.mem_cons, List.not_mem_nil, or_false]
    tauto

lemma length_dictAdd (l : List Str) (k : Str) :
    (dictAdd l k).length ≤ l.length + 1 := by
  unfold dictAdd
  by_cases h : k ∈ l
  · rw [if_pos h]
    omega
  · rw [if_neg h]
    simp

lemma mem_map_fst_accessAssign (a : List (Str × Nat)) (k : Str) (t : Nat) (k0 : Str) :
    k0 ∈ (accessAssign a k t).map Prod.fst ↔ k0 = k ∨ k0 ∈ a.map Prod.fst := by
  unfold accessAssign
  by_cases hany : (a.any fun p => decide (p.1 = k)) = true
  · rw [if_pos hany]
    simp only [List.map_map, List.mem_map, Function.comp]
    constructor
    · rintro ⟨q, hq, hfq⟩
      by_cases hqk : q.1 = k
      · left
        rw [← hfq]
        simp [hqk]
      · right
        exact ⟨q, hq, by simpa [hqk] using hfq⟩
    · rintro (rfl | ⟨q, hq, hfq⟩)
      · obtain ⟨q, hq, hqk⟩ := List.any_eq_true.mp hany
        exact ⟨q, hq, by simp [of_decide_eq_true hqk]⟩
      · by_cases hqk : q.1 = k
        · exact ⟨q, hq, by simp [hqk, hfq ▸ hqk]⟩
        · exact ⟨q, hq, by simpa [hqk] using hfq⟩
  · rw [if_neg hany]
    simp only [List.map_append, List.mem_append, List.map_cons, List.map_nil,
      List.mem_cons, List.not_mem_nil, or_false]
    tauto

lemma cleanup_llm (c : Cache) (h5 : 5 ≤ c.maxSize) (hlen : c.llm.length ≤ c.maxSize)
    (hkeys : ∀ k, k ∈ c.access.map Prod.fst ↔ k ∈ c.llm) :
    (cleanupCache c true).maxSize = c.maxSize ∧
    (cleanupCache c true).llm.length < c.maxSize ∧
    (∀ k, k ∈ (cleanupCache c true).access.map Prod.fst ↔
      k ∈ (cleanupCache c true).llm) := by
  have hcl : cleanupCache c true =
      (if c.maxSize ≤ c.llm.length then
        { c with
          llm := c.llm.filter (fun k =>
            !(k ∈ ((sortByVal c.access).take (c.maxSize / 5)).map (fun p => p.1)))
          access := c.access.filter (fun p =>
            !(p.1 ∈ ((sortByVal c.access).take (c.maxSize / 5)).map (fun p => p.1))) }
      else c) := rfl
  by_cases hcap : c.maxSize ≤ c.llm.length
  · have heq : c.llm.length = c.maxSize := le_antisymm hlen hcap
    rw [hcl, if_pos hcap]
    refine ⟨rfl, ?_, ?_⟩
    · have hdiv : 1 ≤ c.maxSize / 5 := (Nat.one_le_div_iff (by norm_num)).mpr h5
      have hpos : 0 < c.llm.length := by omega
      obtain ⟨k0, hk0⟩ := List.exists_mem_of_ne_nil c.llm (List.length_pos.mp hpos)
      have hk0a : k0 ∈ c.access.map Prod.fst := (hkeys k0).mpr hk0
      obtain ⟨p0, hp0, hp0f⟩ := List.mem_map.mp hk0a
      have hs : p0 ∈ sortByVal c.access := (mem_sortByVal p0 c.access).mpr hp0
      obtain ⟨q, qs, hqs⟩ := List.exists_cons_of_ne_nil (List.ne_nil_of_mem hs)
      have hqtake : q ∈ (sortByVal c.access).take (c.maxSize / 5) := by
        rw [hqs]
        cases hn : c.maxSize / 5 with
        | zero => omega
        | succ n => simp
      have hqrem : q.1 ∈ ((sortByVal c.access).take (c.maxSize / 5)).map
          (fun p => p.1) := List.mem_map_of_mem _ hqtake
      have hqacc : q ∈ c.access := by
        have : q ∈ sortByVal c.access := by rw [hqs]; exact List.mem_cons_self q qs
        exact (mem_sortByVal q c.access).mp this
      have hqllm : q.1 ∈ c.llm := (hkeys q.1).mp (List.mem_map_of_mem Prod.fst hqacc)
      have hqrem2 : q.1 ∈ List.take (c.maxSize / 5)
          (List.map (fun p => p.1) (sortByVal c.access)) := by
        simpa [List.map_take] using hqrem
      show (List.filter (fun k =>
          !decide (k ∈ List.map (fun p => p.1)
            (List.take (c.maxSize / 5) (sortByVal c.access)))) c.llm).length < c.maxSize
      have hlt2 : (List.filter (fun k =>
          !decide (k ∈ List.map (fun p => p.1)
            (List.take (c.maxSize / 5) (sortByVal c.access)))) c.llm).length <
          c.llm.length :=
        List.length_filter_lt_length_iff_exists.mpr ⟨q.1, hqllm, by simp [hqrem2]⟩
      omega
    · intro k
      constructor
      · intro hkm
        obtain ⟨p, hp, hpf⟩ := List.mem_map.mp hkm
        obtain ⟨hpacc, hpkeep⟩ := List.mem_filter.mp hp
        refine List.mem_filter.mpr ⟨?_, ?_⟩
        · exact hpf ▸ (hkeys p.1).mp (List.mem_map_of_mem Prod.fst hpacc)
        · rw [← hpf]
          exact hpkeep
      · intro hk
        obtain ⟨hkl, hkeep⟩ := List.mem_filter.mp hk
        obtain ⟨p, hp, hpf⟩ := List.mem_map.mp ((hkeys k).mpr hkl)
        refine List.mem_map.mpr ⟨p, List.mem_filter.mpr ⟨hp, ?_⟩, hpf⟩
        rw [hpf]
        exact hkeep
  · rw [hcl, if_neg hcap]
    exact ⟨rfl, by omega, hkeys⟩

lemma setLlm_step (c : Cache) (t m : Str) (h5 : 5 ≤ c.maxSize)
    (hlen : c.llm.length ≤ c.maxSize)
    (hkeys : ∀ k, k ∈ c.access.map Prod.fst ↔ k ∈ c.llm) :
    (setLlmResponse c t m).maxSize = c.maxSize ∧
    (setLlmResponse c t m).llm.length ≤ c.maxSize ∧
    (∀ k, k ∈ (setLlmResponse c t m).access.map Prod.fst ↔
      k ∈ (setLlmResponse c t m).llm) := by
  obtain ⟨hm1, hlt, hk1⟩ := cleanup_llm c h5 hlen hkeys
  have hset : setLlmResponse c t m =
      { cleanupCache c true with
        llm := dictAdd (cleanupCache c true).llm
          (getCacheKeyContent t ((r"llm").data) m)
        access := accessAssign (cleanupCache c true).access
          (getCacheKeyContent t ((r"llm").data) m) ((cleanupCache c true).clock + 2)
        clock := (cleanupCache c true).clock + 2 } := rfl
  rw [hset]
  refine ⟨hm1, ?_, ?_⟩
  · show (dictAdd (cleanupCache c true).llm
      (getCacheKeyContent t ((r"llm").data) m)).length ≤ c.maxSize
    have hda := length_dictAdd (cleanupCache c true).llm
      (getCacheKeyContent t ((r"llm").data) m)
    omega
  · intro k
    show k ∈ (accessAssign (cleanupCache c true).access
        (getCacheKeyContent t ((r"llm").data) m)
        ((cleanupCache c true).clock + 2)).map Prod.fst ↔
      k ∈ dictAdd (cleanupCache c true).llm (getCacheKeyContent t ((r"llm").data) m)
    rw [mem_map_fst_accessAssign, mem_dictAdd, hk1]

/-- C8 amended: eviction removes from a namespace only those of the
    globally oldest max_size/5 keys (ordered by last-access time across
    both namespaces) that belong to it, so a namespace can exceed
    max_size when the oldest keys belong to the other namespace or when
    max_size/5 is zero; when only the llm namespace is used and
    max_size is at least 5, its size stays bounded by max_size after
    every sequence of sets. -/
theorem c8_amended (texts : List Str) (maxSize : Nat) (h5 : 5 ≤ maxSize) :
    ((texts.foldl (fun c t => setLlmResponse c t []) (emptyCache maxSize)).llm).length ≤
      maxSize := by
  suffices h : ∀ c : Cache, c.maxSize = maxSize → c.llm.length ≤ maxSize →
      (∀ k, k ∈ c.access.map Prod.fst ↔ k ∈ c.llm) →
      (texts.foldl (fun c t => setLlmResponse c t []) c).llm.length ≤ maxSize by
    exact h (emptyCache maxSize) rfl (by simp [emptyCache]) (by simp [emptyCache])
  induction texts with
  | nil =>
    intro c _ hlen _
    exact hlen
  | cons t ts ih =>
    intro c hm hlen hkeys
    have h5c : 5 ≤ c.maxSize := by rw [hm]; exact h5
    have hlenc : c.llm.length ≤ c.maxSize := by rw [hm]; exact hlen
    obtain ⟨hm1, hlen1, hk1⟩ := setLlm_step c t [] h5c hlenc hkeys
    exact ih (setLlmResponse c t []) (by rw [hm1, hm])
      (by rw [← hm]; exact hlen1) hk1

/-- Witness for C8 amended: capacity 6 with two sets stays within bounds. -/
theorem c8_amended_witness :
    5 ≤ 6 ∧
    ((([(r"u").data, (r"v").data]).foldl (fun c t => setLlmResponse c t [])
        (emptyCache 6)).llm).length ≤ 6 :=
  ⟨by decide, c8_amended _ _ (by decide)⟩

/-- Witness for C9 amended at concrete colon-free inputs. -/
theorem c9_amended_witness :
    ((':' ∉ ((r"a").data : Str)) ∧ (':' ∉ ((r"llm").data : Str)) ∧
     (':' ∉ ((r"m1").data : Str)) ∧ (':' ∉ ((r"b").data : Str)) ∧
     (':' ∉ ((r"m2").data : Str))) ∧
    (getCacheKeyContent ((r"a").data) ((r"llm").data) ((r"m1").data) =
        getCacheKeyContent ((r"b").data) ((r"llm").data) ((r"m2").data) ↔
      (((r"a").data : Str) = (r"b").data ∧ ((r"llm").data : Str) = (r"llm").data ∧
       ((r"m1").data : Str) = (r"m2").data)) :=
  ⟨⟨by decide, by decide, by decide, by decide, by decide⟩,
   c9_amended _ _ _ _ _ _ (by decide) (by decide) (by decide) (by decide) (by decide)
     (by decide)⟩

end TxtRefine
